import Mathlib

/-!
Verification of the Markdown-to-notebook converter (`md_to_ipynb.py`).

Text is modelled as `List Char`; the Python functions `to_source`, `md_to_cells`,
`get_notebook_title`, `convert_lab` and `main`'s batch loop are embedded as
executable Lean functions below, following the source line by line.  The regular
expressions of the source are small and fixed, so each one is embedded as an
explicit backtracking matcher with the same greedy/non-greedy semantics.
-/

namespace MdToIpynb

/-- Python `\s` / `str.strip` whitespace, restricted to the ASCII range in which
all documents of this repository live. -/
def isSpaceChar (c : Char) : Bool :=
  c = ' ' || c = '\t' || c = '\n' || c = '\r' || c = Char.ofNat 11 || c = Char.ofNat 12

/-- The character class `[ \t]` used by the fence patterns. -/
def isBlankChar (c : Char) : Bool :=
  c = ' ' || c = '\t'

/-- Python `str.strip()`. -/
def pyStrip (l : List Char) : List Char :=
  ((l.dropWhile isSpaceChar).reverse.dropWhile isSpaceChar).reverse

/-- Python `str.rstrip()`. -/
def pyRStrip (l : List Char) : List Char :=
  (l.reverse.dropWhile isSpaceChar).reverse

/-- Match a literal prefix, returning the remainder on success. -/
def dropPfx : List Char → List Char → Option (List Char)
  | [], s => some s
  | _ :: _, [] => none
  | p :: ps, c :: cs => if p = c then dropPfx ps cs else none

/-! ### The line-sequence encoder `to_source`

Python: `text.split("\n")`, then every line but the last gets `"\n"` appended,
and the last line is kept (with `"\n"` appended) only when it is non-empty. -/

/-- Helper for `splitNl`: prepend a character to the first chunk. -/
def consHead (c : Char) : List (List Char) → List (List Char)
  | [] => [[c]]
  | l :: ls => (c :: l) :: ls

/-- Python `text.split("\n")` (always returns at least one chunk). -/
def splitNl : List Char → List (List Char)
  | [] => [[]]
  | c :: rest => if c = '\n' then [] :: splitNl rest else consHead c (splitNl rest)

/-- Embedding of `to_source` (md_to_ipynb.py, lines 55-60):
`[line + "\n" for line in lines[:-1]] + ([lines[-1] + "\n"] if lines[-1] else [])`. -/
def to_source (text : List Char) : List (List Char) :=
  if text = [] then []
  else
    let lines := splitNl text
    lines.dropLast.map (fun l => l ++ ['\n']) ++
      (if lines.getLastD [] = [] then [] else [lines.getLastD [] ++ ['\n']])

/-! ### The fenced-code-block matcher

Python pattern (md_to_ipynb.py, line 36), compiled with `MULTILINE | DOTALL`:
three backticks, then `python[ \t]*\n`, then a non-greedy body, then a newline
and a closing backtick fence `[ \t]*$`, with both fences anchored at line starts.
-/

/-- The literal opening tag (three backticks followed by `python`). -/
def pythonTag : List Char := "```python".data

/-- The literal closing fence (three backticks). -/
def fenceTag : List Char := "```".data

/-- Match the opening marker `(three backticks)python[ \t]*\n` at the current
position; returns the text after the newline. -/
def matchOpen (s : List Char) : Option (List Char) :=
  match dropPfx pythonTag s with
  | none => none
  | some r =>
    match r.dropWhile isBlankChar with
    | '\n' :: rest => some rest
    | _ => none

/-- Match the closing marker `(three backticks)[ \t]*$` at the current position
(the position right after the body's terminating newline).  `$` is zero-width
under `MULTILINE`, so on success the remainder still starts with the closing
line's `'\n'` (or is empty at the end of the document). -/
def matchClose (s : List Char) : Option (List Char) :=
  match dropPfx fenceTag s with
  | none => none
  | some r =>
    match r.dropWhile isBlankChar with
    | [] => some []
    | '\n' :: rest => some ('\n' :: rest)
    | _ => none

/-- Non-greedy search for `\n` followed by the closing marker: returns the
(shortest) body together with the text after the match end. -/
def findClose : List Char → Option (List Char × List Char)
  | [] => none
  | c :: rest =>
    if c = '\n' then
      match matchClose rest with
      | some after => some ([], after)
      | none => (findClose rest).map fun p => (c :: p.1, p.2)
    else
      (findClose rest).map fun p => (c :: p.1, p.2)

/-- Leftmost match of the full fence pattern, scanning from the current
position; `atStart` records whether the position is at a line start (for the
`^` anchor).  Returns `(text before the match, fence body, text after the
match end)`. -/
def findFence : List Char → Bool → Option (List Char × List Char × List Char)
  | [], _ => none
  | c :: rest, atStart =>
    match (if atStart then (matchOpen (c :: rest)).bind findClose else none) with
    | some (body, after) => some ([], body, after)
    | none =>
      (findFence rest (c = '\n')).map fun p => (c :: p.1, p.2.1, p.2.2)

/-! ### The trailing-artifact substitution

Python (md_to_ipynb.py, line 41): `re.sub(r"\s*(fence)python[ \t]*\n?$", "", before)`
with the default (non-MULTILINE) `$`, which matches at the end of the string or
just before a final newline.  The pattern can match at most once. -/

/-- Decide whether the artifact pattern matches starting exactly at this
position, and if so return what is left after the matched span (the span ends
at `$`, so a final newline can survive it). -/
def subTail (s : List Char) : Option (List Char) :=
  match dropPfx pythonTag (s.dropWhile isSpaceChar) with
  | none => none
  | some r =>
    match r.dropWhile isBlankChar with
    | [] => some []
    | ['\n'] => some []
    | ['\n', '\n'] => some ['\n']
    | _ => none

/-- The substitution itself: replace the leftmost (and only possible)
occurrence of the artifact pattern by the empty string. -/
def applySub : List Char → List Char
  | [] => []
  | c :: rest =>
    match subTail (c :: rest) with
    | some residual => residual
    | none => c :: applySub rest

/-! ### Cells and the splitter loop -/

inductive CellType where
  | markdown
  | code
deriving DecidableEq

/-- A notebook cell: the constant fields (`metadata`, and for code cells
`execution_count`/`outputs`) of the Python cell dicts are attached during JSON
assembly (`cellJson` below), exactly as the dict literals of the source fix
them. -/
structure Cell where
  cell_type : CellType
  source : List (List Char)
deriving DecidableEq

def mdCell (text : List Char) : Cell :=
  ⟨CellType.markdown, to_source text⟩

def codeCell (text : List Char) : Cell :=
  ⟨CellType.code, to_source text⟩

/-- The `finditer` loop of `md_to_cells` (md_to_ipynb.py, lines 37-52).  The
`fuel` argument only bounds the recursion; every successful `findFence` step
strictly shrinks the text, so `length + 1` fuel (as used by `md_to_cells`)
never runs out. -/
def cellsLoopF : Nat → List Char → Bool → List Cell
  | 0, _, _ => []
  | fuel + 1, s, atStart =>
    match findFence s atStart with
    | some (before, body, rest) =>
      let b := pyStrip (applySub before)
      (if b = [] then [] else [mdCell b]) ++
        codeCell (pyRStrip body) :: cellsLoopF fuel rest false
    | none =>
      let after := pyStrip s
      if after = [] then [] else [mdCell after]

/-- Embedding of `md_to_cells` (md_to_ipynb.py, lines 29-52). -/
def md_to_cells (md_text : List Char) : List Cell :=
  cellsLoopF (md_text.length + 1) md_text true

/-- The cell list actually placed in the notebook: `convert_lab`'s fallback
(md_to_ipynb.py, lines 77-80) substitutes a single markdown cell holding the
whole document when the splitter returns nothing. -/
def labCells (md_text : List Char) : List Cell :=
  let cells := md_to_cells md_text
  if cells = [] then [mdCell md_text] else cells

/-- Scan for a line-start occurrence of the opening marker (used to phrase
"the document contains no python-tagged fence opening" independently of
`findFence`). -/
def hasOpen : List Char → Bool → Bool
  | [], _ => false
  | c :: rest, atStart =>
    (atStart && (matchOpen (c :: rest)).isSome) || hasOpen rest (c = '\n')

/-! ### The title extractor

Python (md_to_ipynb.py, lines 63-67): `re.match(r"^#\s+(.+)$", text, re.MULTILINE)`.
`re.match` anchors at position 0 of the string, `\s+` is greedy with
backtracking, `.` does not cross a newline, and the `MULTILINE` `$` always
holds at the end of the greedy `.+` run. -/

/-- Capture `(.+)$` at the current position: the (non-empty) run of
non-newline characters. -/
def capDotPlus (s : List Char) : Option (List Char) :=
  let cap := s.takeWhile fun c => ¬(c = '\n')
  if cap = [] then none else some cap

/-- Match `\s+(.+)$` at the current position, preferring the longest
whitespace run (greedy `\s+`) and falling back one character at a time. -/
def spacePlusCap : List Char → Option (List Char)
  | [] => none
  | c :: rest =>
    if isSpaceChar c then
      match spacePlusCap rest with
      | some cap => some cap
      | none => capDotPlus rest
    else none

/-- Embedding of `get_notebook_title`: the stem is the fallback computed from
the path by the caller. -/
def get_notebook_title (text : List Char) (stem : List Char) : List Char :=
  match text with
  | '#' :: rest =>
    match spacePlusCap rest with
    | some cap => pyStrip cap
    | none => stem
  | _ => stem

/-! ### JSON values and `json.dumps(nb, indent=2, ensure_ascii=False)`

Dictionaries keep insertion order, so the notebook's key order is exactly the
order of the dict literals in the source. -/

inductive Json where
  | null
  | bool (b : Bool)
  | num (n : Nat)
  | str (s : List Char)
  | arr (elems : List Json)
  | obj (fields : List (String × Json))

/-- Lowercase hexadecimal digit. -/
def hexDigit (n : Nat) : Char :=
  if n < 10 then Char.ofNat (48 + n) else Char.ofNat (87 + n)

/-- Escaping of one character as `json.dumps` does with `ensure_ascii=False`:
quote, backslash and control characters are escaped, everything else (incl.
non-ASCII) is emitted literally. -/
def escChar (c : Char) : List Char :=
  if c = '"' then ['\\', '"']
  else if c = '\\' then ['\\', '\\']
  else if c = '\n' then ['\\', 'n']
  else if c = '\t' then ['\\', 't']
  else if c = '\r' then ['\\', 'r']
  else if c = Char.ofNat 8 then ['\\', 'b']
  else if c = Char.ofNat 12 then ['\\', 'f']
  else if c.toNat < 32 then ['\\', 'u', '0', '0', hexDigit (c.toNat / 16), hexDigit (c.toNat % 16)]
  else [c]

/-- A JSON string literal. -/
def escStr (s : List Char) : List Char :=
  '"' :: (s.flatMap escChar) ++ ['"']

def spacesN (n : Nat) : List Char :=
  List.replicate n ' '

/-- Join chunks with a separator (as `sep.join(...)`). -/
def sepJoin (sep : List Char) : List (List Char) → List Char
  | [] => []
  | [x] => x
  | x :: xs => x ++ sep ++ sepJoin sep xs

/-- Renderer for `json.dumps(..., indent=2, ensure_ascii=False)`: with an
indent, items are separated by `",\n"` plus the deeper indent, key/value by
`": "`, and empty containers collapse.  The `fuel` argument only bounds the
recursion depth; every notebook value built here has depth at most 5, and
`dumps` passes 8. -/
def renderJson : Nat → Json → Nat → List Char
  | 0, _, _ => []
  | fuel + 1, j, ind =>
    match j with
    | Json.null => "null".data
    | Json.bool b => if b then "true".data else "false".data
    | Json.num n => Nat.toDigits 10 n
    | Json.str s => escStr s
    | Json.arr [] => "[]".data
    | Json.arr es =>
      '[' :: '\n' ::
        sepJoin (",\n".data) (es.map fun e => spacesN (ind + 2) ++ renderJson fuel e (ind + 2)) ++
        '\n' :: spacesN ind ++ "]".data
    | Json.obj [] => "\x7b\x7d".data
    | Json.obj fs =>
      "\x7b\n".data ++
        sepJoin (",\n".data)
          (fs.map fun kv => spacesN (ind + 2) ++ escStr kv.1.data ++ ": ".data ++
            renderJson fuel kv.2 (ind + 2)) ++
        '\n' :: spacesN ind ++ "\x7d".data

def dumps (j : Json) : List Char :=
  renderJson 8 j 0

/-- Field access in a JSON object. -/
def jLookup (j : Json) (k : String) : Option Json :=
  match j with
  | Json.obj fs => fs.lookup k
  | _ => none

/-! ### Notebook assembly (md_to_ipynb.py, lines 11-26 and 82-89) -/

/-- The per-cell dicts of `md_to_cells`: markdown cells carry
`cell_type/metadata/source`, code cells additionally `execution_count: None`
and `outputs: []`, in the dict-literal order of the source. -/
def cellJson (c : Cell) : Json :=
  match c.cell_type with
  | CellType.markdown =>
    Json.obj [("cell_type", Json.str "markdown".data), ("metadata", Json.obj []),
      ("source", Json.arr (c.source.map Json.str))]
  | CellType.code =>
    Json.obj [("cell_type", Json.str "code".data), ("metadata", Json.obj []),
      ("execution_count", Json.null), ("outputs", Json.arr []),
      ("source", Json.arr (c.source.map Json.str))]

/-- `COLAB_NOTEBOOK_METADATA` with the `colab.name` field set to `colabName`
(the single field `convert_lab` mutates through the shared inner dict). -/
def colabMetadata (colabName : List Char) : Json :=
  Json.obj [
    ("colab", Json.obj [("name", Json.str colabName), ("provenance", Json.arr []),
      ("toc_visible", Json.bool true)]),
    ("kernelspec", Json.obj [("display_name", Json.str "Python 3".data),
      ("language", Json.str "python".data), ("name", Json.str "python3".data)]),
    ("language_info", Json.obj [("name", Json.str "python".data),
      ("version", Json.str "3.10.0".data)])]

/-- The notebook record `nb` of `convert_lab` (md_to_ipynb.py, lines 84-89). -/
def nbJson (colabName : List Char) (cells : List Cell) : Json :=
  Json.obj [("nbformat", Json.num 4), ("nbformat_minor", Json.num 5),
    ("metadata", colabMetadata colabName), ("cells", Json.arr (cells.map cellJson))]

/-! ### Paths and the per-document driver -/

/-- `pathlib` stem/suffix rule on a path's final component: the name has a
suffix iff its last dot sits at an index `i` with `0 < i < length - 1`; the
stem is the part before that dot. -/
def pyStem (name : List Char) : List Char :=
  let k := name.reverse.findIdx fun c => c = '.'
  let i := name.length - 1 - k
  if k < name.length ∧ 0 < i ∧ i < name.length - 1 then name.take i else name

/-- Final path component (`Path.name`). -/
def baseName (path : List Char) : List Char :=
  (path.reverse.takeWhile fun c => ¬(c = '/')).reverse

/-- `Path.with_suffix`: replace the final component's suffix. -/
def withSuffix (path : List Char) (suffix : List Char) : List Char :=
  let base := baseName path
  path.take (path.length - base.length) ++ pyStem base ++ suffix

/-- `ROOT / md_name`. -/
def pathJoin (root : List Char) (name : List Char) : List Char :=
  root ++ '/' :: name

/-- Observable effects of `convert_lab`: a file write, or a printed line. -/
inductive Event where
  | wrote (path : List Char) (content : List Char)
  | msg (line : List Char)
deriving DecidableEq

def skipMsg (p : List Char) : List Char :=
  "Skip (not found): ".data ++ p

def wroteMsg (p : List Char) (n : Nat) : List Char :=
  "Wrote ".data ++ baseName p ++ " (".data ++ Nat.toDigits 10 n ++ " cells)".data

/-- Embedding of `convert_lab` (md_to_ipynb.py, lines 70-92).  `fs` maps a
path to the contents of the file there, if any.  `st` is the value of
`COLAB_NOTEBOOK_METADATA["colab"]["name"]` before the call: `dict(...)` makes
a shallow copy, so the inner `colab` dict is shared module-level state whose
`name` field is overwritten on every conversion; the updated value is
returned as the first component. -/
def convert_lab (fs : List Char → Option (List Char)) (root : List Char)
    (md_name : List Char) (st : List Char) : List Char × List Event :=
  let md_path := pathJoin root md_name
  match fs md_path with
  | none => (st, [Event.msg (skipMsg md_path)])
  | some md_text =>
    let cells := labCells md_text
    let _title := get_notebook_title md_text (pyStem md_name)
    let st' := pyStem md_name ++ ".ipynb".data
    let nb := nbJson st' cells
    let ipynb_path := withSuffix md_path ".ipynb".data
    (st', [Event.wrote ipynb_path (dumps nb), Event.msg (wroteMsg ipynb_path cells.length)])

/-- The batch loop of `main` (md_to_ipynb.py, lines 106-107), over an
arbitrary configured list of document names, threading the shared metadata
state and collecting the effects in order. -/
def runBatch (fs : List Char → Option (List Char)) (root : List Char) :
    List (List Char) → List Char → List Char × List Event
  | [], st => (st, [])
  | n :: ns, st =>
    let r := convert_lab fs root n st
    let r2 := runBatch fs root ns r.1
    (r2.1, r.2 ++ r2.2)

/-- The fixed document list of `main` (md_to_ipynb.py, lines 96-105). -/
def labsList : List (List Char) :=
  ["Lab0_Build_an_EOP_Agent_Prototype.md".data,
   "Lab1_Anatomy_of_a_Decision.md".data,
   "Lab2_Contract_of_a_Tool.md".data,
   "Lab3_The_Persistent_Agent.md".data,
   "Lab4_Graphs_Cycles_and_Recovery.md".data,
   "Lab5_Evidence_Chain_Extraction.md".data,
   "Lab6_Claim_Contingent_Disclosure.md".data,
   "Lab7_EOP_Spokesperson.md".data]

/-! ### Spec-side definition for the title claim

C2 reads the title rule as finding the first heading **line anywhere** in the
document; this definition follows that wording, to be compared with the
anchored `re.match` of the source. -/

/-- A line of the form: heading marker, whitespace, text — yielding the
trimmed heading text, as the spec's words describe. -/
def lineTitle (l : List Char) : Option (List Char) :=
  match l with
  | '#' :: r =>
    if (r.takeWhile isSpaceChar) ≠ [] ∧ r.dropWhile isSpaceChar ≠ [] then
      some (pyStrip (r.dropWhile isSpaceChar))
    else none
  | _ => none

/-- Modelled from the spec's words for claim C2: the first matching heading
line anywhere in the document, else the stem. -/
def specTitleAnyLine (text : List Char) (stem : List Char) : List Char :=
  match (splitNl text).findSome? lineTitle with
  | some ttl => ttl
  | none => stem

/-- Proof helper: re-join chunks with a newline between them (the inverse of
`splitNl`). -/
def joinNl : List (List Char) → List Char
  | [] => []
  | [l] => l
  | l :: ls => l ++ '\n' :: joinNl ls

/-! ## Theorems -/

theorem splitNl_ne_nil : ∀ t : List Char, splitNl t ≠ [] := by
  intro t
  induction t with
  | nil => simp [splitNl]
  | cons c rest ih =>
    simp only [splitNl]
    split
    · simp
    · cases h : splitNl rest with
      | nil => exact absurd h ih
      | cons l ls => simp [consHead]

theorem splitNl_cons_nl (rest : List Char) : splitNl ('\n' :: rest) = [] :: splitNl rest := by
  simp [splitNl]

theorem splitNl_cons_other {c : Char} (hc : ¬(c = '\n')) (rest : List Char) :
    splitNl (c :: rest) = consHead c (splitNl rest) := by
  simp [splitNl, hc]

theorem joinNl_cons_ne_nil {l : List Char} {ls : List (List Char)} (h : ls ≠ []) :
    joinNl (l :: ls) = l ++ '\n' :: joinNl ls := by
  cases ls with
  | nil => exact absurd rfl h
  | cons a as => rfl

theorem joinNl_consHead {c : Char} {ls : List (List Char)} (h : ls ≠ []) :
    joinNl (consHead c ls) = c :: joinNl ls := by
  cases ls with
  | nil => exact absurd rfl h
  | cons l ls' =>
    cases ls' with
    | nil => rfl
    | cons b bs => rfl

theorem joinNl_splitNl : ∀ t : List Char, joinNl (splitNl t) = t := by
  intro t
  induction t with
  | nil => rfl
  | cons c rest ih =>
    by_cases hc : c = '\n'
    · subst hc
      rw [splitNl_cons_nl, joinNl_cons_ne_nil (splitNl_ne_nil rest), ih]
      simp
    · rw [splitNl_cons_other hc, joinNl_consHead (splitNl_ne_nil rest), ih]

theorem consHead_append {c : Char} {ls ls2 : List (List Char)} (h : ls ≠ []) :
    consHead c (ls ++ ls2) = consHead c ls ++ ls2 := by
  cases ls with
  | nil => exact absurd rfl h
  | cons l ls' => rfl

theorem splitNl_concat_nl : ∀ s : List Char, splitNl (s ++ ['\n']) = splitNl s ++ [[]] := by
  intro s
  induction s with
  | nil => rfl
  | cons c rest ih =>
    rw [List.cons_append]
    by_cases hc : c = '\n'
    · subst hc
      rw [splitNl_cons_nl, splitNl_cons_nl, ih, List.cons_append]
    · rw [splitNl_cons_other hc, splitNl_cons_other hc, ih,
        consHead_append (splitNl_ne_nil rest)]

theorem dropLast_cons_ne {α : Type} {a : α} {l : List α} (h : l ≠ []) :
    (a :: l).dropLast = a :: l.dropLast := by
  cases l with
  | nil => exact absurd rfl h
  | cons b bs => rfl

theorem getLastD_cons_ne {α : Type} (a d d' : α) (l : List α) (h : l ≠ []) :
    (a :: l).getLastD d = l.getLastD d' := by
  cases l with
  | nil => exact absurd rfl h
  | cons b bs => simp only [List.getLastD_cons]

theorem splitNl_concat_other {c : Char} (hc : ¬(c = '\n')) :
    ∀ s : List Char,
      splitNl (s ++ [c]) = (splitNl s).dropLast ++ [(splitNl s).getLastD [] ++ [c]] := by
  intro s
  induction s with
  | nil => simp [splitNl, hc, consHead]
  | cons c' rest ih =>
    rw [List.cons_append]
    by_cases hc' : c' = '\n'
    · subst hc'
      rw [splitNl_cons_nl, splitNl_cons_nl, ih, dropLast_cons_ne (splitNl_ne_nil rest),
        getLastD_cons_ne [] [] [] _ (splitNl_ne_nil rest), List.cons_append]
    · rw [splitNl_cons_other hc', splitNl_cons_other hc', ih]
      cases h : splitNl rest with
      | nil => exact absurd h (splitNl_ne_nil rest)
      | cons l ls =>
        cases ls with
        | nil => simp [consHead, List.getLastD_cons]
        | cons b bs =>
          simp only [consHead]
          rw [dropLast_cons_ne (List.cons_ne_nil b bs),
            getLastD_cons_ne _ [] [] _ (List.cons_ne_nil b bs)]
          simp

theorem join_map_nl : ∀ S : List (List Char), S ≠ [] →
    (S.map fun l => l ++ ['\n']).flatten = joinNl S ++ ['\n'] := by
  intro S
  induction S with
  | nil => intro h; exact absurd rfl h
  | cons l ls ih =>
    intro _
    cases ls with
    | nil => simp [joinNl]
    | cons b bs =>
      rw [List.map_cons, List.flatten_cons, ih (List.cons_ne_nil b bs),
        joinNl_cons_ne_nil (List.cons_ne_nil b bs)]
      simp

theorem join_map_pad : ∀ (D : List (List Char)) (L : List Char),
    (D.map fun l => l ++ ['\n']).flatten ++ L = joinNl (D ++ [L]) := by
  intro D
  induction D with
  | nil => intro L; simp [joinNl]
  | cons d ds ih =>
    intro L
    rw [List.cons_append, joinNl_cons_ne_nil (by simp)]
    simp only [List.map_cons, List.flatten_cons]
    rw [← ih L]
    simp

theorem dropLast_append_getLastD {α : Type} :
    ∀ (l : List α) (d : α), l ≠ [] → l.dropLast ++ [l.getLastD d] = l := by
  intro l
  induction l with
  | nil => intro d h; exact absurd rfl h
  | cons a as ih =>
    intro d _
    cases as with
    | nil => rfl
    | cons b bs =>
      rw [dropLast_cons_ne (List.cons_ne_nil b bs), List.getLastD_cons, List.cons_append,
        ih a (List.cons_ne_nil b bs)]

theorem to_source_concat_nl (s : List Char) :
    to_source (s ++ ['\n']) = (splitNl s).map fun l => l ++ ['\n'] := by
  rw [to_source, if_neg (by simp)]
  rw [splitNl_concat_nl]
  simp [List.dropLast_concat, List.getLastD_concat]

theorem to_source_concat_other {c : Char} (hc : ¬(c = '\n')) (s : List Char) :
    to_source (s ++ [c]) = ((splitNl s).dropLast.map fun l => l ++ ['\n']) ++
      [((splitNl s).getLastD [] ++ [c]) ++ ['\n']] := by
  rw [to_source, if_neg (by simp)]
  rw [splitNl_concat_other hc]
  simp [List.dropLast_concat, List.getLastD_concat]

/-- What joining the encoder's output actually gives: the original text when it
ends in a newline, and the original text plus one trailing newline otherwise. -/
theorem to_source_join (t : List Char) (h : t ≠ []) :
    (to_source t).flatten = if t.getLast? = some '\n' then t else t ++ ['\n'] := by
  obtain ⟨s, c, rfl⟩ : ∃ s c, t = s ++ [c] := by
    rcases (List.eq_nil_or_concat t) with h' | ⟨s, c, h'⟩
    · exact absurd h' h
    · exact ⟨s, c, by simpa [List.concat_eq_append] using h'⟩
  by_cases hc : c = '\n'
  · subst hc
    rw [to_source_concat_nl, join_map_nl _ (splitNl_ne_nil s), joinNl_splitNl,
      if_pos (by simp [List.getLast?_concat])]
  · rw [to_source_concat_other hc, if_neg (by simp [List.getLast?_concat, hc]),
      List.flatten_append]
    simp only [List.flatten_cons, List.flatten_nil, List.append_nil]
    have step : ((splitNl s).dropLast.map fun l => l ++ ['\n']).flatten ++
        (((splitNl s).getLastD [] ++ [c]) ++ ['\n']) =
        ((((splitNl s).dropLast.map fun l => l ++ ['\n']).flatten ++
          (splitNl s).getLastD []) ++ [c]) ++ ['\n'] := by
      simp
    rw [step, join_map_pad, dropLast_append_getLastD _ _ (splitNl_ne_nil s), joinNl_splitNl]

/-! ### Generic helper lemmas -/

theorem length_dropWhile_le' (p : Char → Bool) (l : List Char) :
    (l.dropWhile p).length ≤ l.length :=
  (List.dropWhile_sublist p).length_le

theorem head?_dropWhile_not (p : Char → Bool) :
    ∀ (l : List Char) (a : Char), (l.dropWhile p).head? = some a → p a = false := by
  intro l
  induction l with
  | nil => intro a h; simp [List.dropWhile] at h
  | cons c rest ih =>
    intro a h
    by_cases hc : p c
    · rw [List.dropWhile_cons_of_pos hc] at h
      exact ih a h
    · rw [List.dropWhile_cons_of_neg hc] at h
      simp only [List.head?_cons, Option.some.injEq] at h
      subst h
      exact Bool.eq_false_iff.mpr hc

theorem dropWhile_dropWhile (p : Char → Bool) (l : List Char) :
    (l.dropWhile p).dropWhile p = l.dropWhile p := by
  cases h : l.dropWhile p with
  | nil => rfl
  | cons a rest =>
    have ha : p a = false := head?_dropWhile_not p l a (by rw [h]; rfl)
    rw [List.dropWhile_cons_of_neg (by simp [ha])]

/-! ### Termination of the `finditer` scan: each match consumes text -/

theorem dropPfx_length : ∀ p s r : List Char, dropPfx p s = some r →
    r.length + p.length = s.length := by
  intro p
  induction p with
  | nil =>
    intro s r h
    simp only [dropPfx, Option.some.injEq] at h
    subst h; simp
  | cons a ps ih =>
    intro s r h
    cases s with
    | nil => simp [dropPfx] at h
    | cons c cs =>
      simp only [dropPfx] at h
      split at h
      · have := ih cs r h
        simp only [List.length_cons]
        omega
      · exact absurd h (by simp)

theorem matchOpen_lt {s r : List Char} (h : matchOpen s = some r) :
    r.length < s.length := by
  cases hp : dropPfx pythonTag s with
  | none =>
    simp only [matchOpen, hp] at h
    exact Option.noConfusion h
  | some r1 =>
    simp only [matchOpen, hp] at h
    have h1 : r1.length + pythonTag.length = s.length := dropPfx_length _ _ _ hp
    have h2 : (r1.dropWhile isBlankChar).length ≤ r1.length := length_dropWhile_le' _ _
    have h3 : pythonTag.length = 9 := rfl
    cases hd : r1.dropWhile isBlankChar with
    | nil => rw [hd] at h; simp at h
    | cons c rest =>
      rw [hd] at h
      rw [hd] at h2
      simp only [List.length_cons] at h2
      split at h
      · next x heq =>
        injection heq with hc hx
        subst hx
        simp only [Option.some.injEq] at h
        subst h
        omega
      · exact absurd h (by simp)

theorem matchClose_le {s r : List Char} (h : matchClose s = some r) :
    r.length + 3 ≤ s.length := by
  cases hp : dropPfx fenceTag s with
  | none =>
    simp only [matchClose, hp] at h
    exact Option.noConfusion h
  | some r1 =>
    simp only [matchClose, hp] at h
    have h1 : r1.length + fenceTag.length = s.length := dropPfx_length _ _ _ hp
    have h2 : (r1.dropWhile isBlankChar).length ≤ r1.length := length_dropWhile_le' _ _
    have h3 : fenceTag.length = 3 := rfl
    cases hd : r1.dropWhile isBlankChar with
    | nil =>
      rw [hd] at h
      simp only [Option.some.injEq] at h
      subst h
      simp only [List.length_nil]
      omega
    | cons c rest =>
      rw [hd] at h
      rw [hd] at h2
      split at h
      · next heq => exact absurd heq (by simp)
      · next x heq =>
        injection heq with hc hx
        subst hx
        simp only [Option.some.injEq] at h
        subst h
        simp only [List.length_cons] at h2 ⊢
        omega
      · exact Option.noConfusion h

theorem findClose_lt : ∀ {s : List Char} {p : List Char × List Char},
    findClose s = some p → p.2.length < s.length := by
  intro s
  induction s with
  | nil => intro p h; simp [findClose] at h
  | cons c rest ih =>
    intro p h
    simp only [findClose] at h
    split at h
    · cases hm : matchClose rest with
      | some after =>
        rw [hm] at h
        simp only [Option.some.injEq] at h
        subst h
        have := matchClose_le hm
        simp only [List.length_cons]
        omega
      | none =>
        rw [hm] at h
        rcases Option.map_eq_some'.mp h with ⟨q, hq, hpq⟩
        have := ih hq
        subst hpq
        simp only [List.length_cons]
        omega
    · rcases Option.map_eq_some'.mp h with ⟨q, hq, hpq⟩
      have := ih hq
      subst hpq
      simp only [List.length_cons]
      omega

theorem findFence_lt : ∀ {s : List Char} {b : Bool}
    {p : List Char × List Char × List Char},
    findFence s b = some p → p.2.2.length < s.length := by
  intro s
  induction s with
  | nil => intro b p h; simp [findFence] at h
  | cons c rest ih =>
    intro b p h
    simp only [findFence] at h
    cases hin : (if b then (matchOpen (c :: rest)).bind findClose else none) with
    | some q =>
      obtain ⟨body, after⟩ := q
      rw [hin] at h
      simp only [Option.some.injEq] at h
      subst h
      have hb : (matchOpen (c :: rest)).bind findClose = some (body, after) := by
        by_cases hbb : b
        · rwa [if_pos hbb] at hin
        · rw [if_neg hbb] at hin; exact absurd hin (by simp)
      rcases Option.bind_eq_some.mp hb with ⟨ao, hao, hcl⟩
      have h1 := matchOpen_lt hao
      have h2 : after.length < ao.length := by simpa using findClose_lt hcl
      simp only [List.length_cons] at h1 ⊢
      omega
    | none =>
      rw [hin] at h
      rcases Option.map_eq_some'.mp h with ⟨q, hq, hpq⟩
      have := ih hq
      subst hpq
      simp only [List.length_cons]
      omega

/-! ### Unfolding and fuel-irrelevance for the splitter loop -/

theorem cellsLoopF_some {fuel : Nat} {s : List Char} {b : Bool}
    {pre body rest : List Char} (h : findFence s b = some (pre, body, rest)) :
    cellsLoopF (fuel + 1) s b =
      (if pyStrip (applySub pre) = [] then [] else [mdCell (pyStrip (applySub pre))]) ++
        codeCell (pyRStrip body) :: cellsLoopF fuel rest false := by
  simp [cellsLoopF, h]

theorem cellsLoopF_none {fuel : Nat} {s : List Char} {b : Bool}
    (h : findFence s b = none) :
    cellsLoopF (fuel + 1) s b =
      if pyStrip s = [] then [] else [mdCell (pyStrip s)] := by
  simp [cellsLoopF, h]

theorem cellsLoopF_fuel : ∀ (fuel fuel' : Nat) (s : List Char) (b : Bool),
    s.length < fuel → s.length < fuel' →
    cellsLoopF fuel s b = cellsLoopF fuel' s b := by
  intro fuel
  induction fuel with
  | zero => intro fuel' s b h; omega
  | succ f ih =>
    intro fuel' s b h h'
    cases fuel' with
    | zero => omega
    | succ f' =>
      cases hf : findFence s b with
      | some p =>
        obtain ⟨pre, body, rest⟩ := p
        rw [cellsLoopF_some hf, cellsLoopF_some hf]
        have hlt : rest.length < s.length := by simpa using findFence_lt hf
        rw [ih f' rest false (by omega) (by omega)]
      | none =>
        rw [cellsLoopF_none hf, cellsLoopF_none hf]

theorem md_to_cells_eq_loop (t : List Char) (fuel : Nat) (h : t.length < fuel) :
    md_to_cells t = cellsLoopF fuel t true :=
  cellsLoopF_fuel _ _ _ _ (by omega) h

/-! ### Shape of encoder output and of emitted cells -/

theorem mem_to_source {t l : List Char} (h : l ∈ to_source t) :
    ∃ x, l = x ++ ['\n'] := by
  simp only [to_source] at h
  split at h
  · simp at h
  · rw [List.mem_append] at h
    rcases h with h | h
    · rcases List.mem_map.mp h with ⟨x, _, hx⟩
      exact ⟨x, hx.symm⟩
    · split at h
      · simp at h
      · rw [List.mem_singleton] at h
        exact ⟨_, h⟩

theorem concat_nl_ne_nil (x : List Char) : x ++ ['\n'] ≠ [] := by
  simp

theorem concat_nl_getLast (x : List Char) : (x ++ ['\n']).getLast? = some '\n' := by
  rw [List.getLast?_append_of_ne_nil x (by simp)]
  rfl

theorem flatten_ends_nl : ∀ ls : List (List Char), ls ≠ [] →
    (∀ x ∈ ls, ∃ y, x = y ++ ['\n']) →
    ls.flatten ≠ [] ∧ ls.flatten.getLast? = some '\n' := by
  intro ls
  induction ls with
  | nil => intro h; exact absurd rfl h
  | cons x xs ih =>
    intro _ hall
    rcases hall x (by simp) with ⟨y, hy⟩
    cases xs with
    | nil =>
      subst hy
      constructor
      · simp [List.flatten_cons]
      · simp only [List.flatten_cons, List.flatten_nil, List.append_nil]
        exact concat_nl_getLast y
    | cons b bs =>
      have hrec := ih (List.cons_ne_nil b bs) (fun z hz => hall z (by simp [hz]))
      constructor
      · simp only [List.flatten_cons]
        intro hcontra
        rcases List.append_eq_nil.mp hcontra with ⟨_, h2⟩
        exact hrec.1 h2
      · simp only [List.flatten_cons] at hrec ⊢
        rw [List.getLast?_append_of_ne_nil _ hrec.1]
        exact hrec.2

theorem cellsLoopF_source : ∀ (fuel : Nat) (s : List Char) (b : Bool) (c : Cell),
    c ∈ cellsLoopF fuel s b → ∃ u, c.source = to_source u := by
  intro fuel
  induction fuel with
  | zero => intro s b c hc; simp [cellsLoopF] at hc
  | succ f ih =>
    intro s b c hc
    cases hf : findFence s b with
    | some p =>
      obtain ⟨pre, body, rest⟩ := p
      rw [cellsLoopF_some hf] at hc
      rw [List.mem_append] at hc
      rcases hc with hc | hc
      · split at hc
        · simp at hc
        · rw [List.mem_singleton] at hc
          exact ⟨_, congrArg Cell.source hc⟩
      · rcases List.mem_cons.mp hc with hc | hc
        · exact ⟨_, congrArg Cell.source hc⟩
        · exact ih rest false c hc
    | none =>
      rw [cellsLoopF_none hf] at hc
      split at hc
      · simp at hc
      · rw [List.mem_singleton] at hc
        exact ⟨_, congrArg Cell.source hc⟩

theorem labCells_source {t : List Char} {c : Cell} (hc : c ∈ labCells t) :
    ∃ u, c.source = to_source u := by
  simp only [labCells] at hc
  split at hc
  · rw [List.mem_singleton] at hc
    exact ⟨_, congrArg Cell.source hc⟩
  · exact cellsLoopF_source _ _ _ _ hc

/-! ### Claim C1 -/

/-- C1 counterexample: for the non-empty text `"a"`, joining the encoder's
output yields `"a\n"`, not the original text — the round trip fails on every
text that does not end in a newline. -/
theorem c1_roundtrip_cex :
    (to_source "a".data).flatten = "a\n".data ∧
      ¬((to_source "a".data).flatten = "a".data) := by
  constructor
  · decide
  · decide

/-- C1 (corrected): joining the encoder's output of a non-empty text block
reconstructs the text exactly when the text ends with a line terminator;
otherwise it reconstructs the text with a single line terminator appended. -/
theorem c1_roundtrip (t : List Char) (h : t ≠ []) :
    (to_source t).flatten = if t.getLast? = some '\n' then t else t ++ ['\n'] :=
  to_source_join t h

theorem c1_roundtrip_wit :
    "a\n".data ≠ ([] : List Char) ∧ (to_source "a\n".data).flatten = "a\n".data :=
  ⟨by decide, (c1_roundtrip "a\n".data (by decide)).trans (by decide)⟩

/-! ### Claim C10 -/

/-- C10: every element of every emitted cell's source list (both the splitter's
cells and the driver's fallback cell) is a non-empty string ending in a line
terminator, and joining a non-empty source list yields text ending in a line
terminator. -/
theorem c10_source_lines (t : List Char) (c : Cell) (l : List Char)
    (hc : c ∈ labCells t) (hl : l ∈ c.source) :
    l ≠ [] ∧ l.getLast? = some '\n' ∧
      (c.source ≠ [] → c.source.flatten ≠ [] ∧ c.source.flatten.getLast? = some '\n') := by
  rcases labCells_source hc with ⟨u, hu⟩
  rcases mem_to_source (hu ▸ hl) with ⟨x, hx⟩
  subst hx
  refine ⟨concat_nl_ne_nil x, concat_nl_getLast x, ?_⟩
  intro hne
  refine flatten_ends_nl c.source hne ?_
  intro z hz
  exact mem_to_source (hu ▸ hz)

theorem c10_source_lines_wit :
    (mdCell "a\nb".data ∈ labCells "a\nb".data) ∧
      ("a\n".data ∈ (mdCell "a\nb".data).source) ∧
      ("a\n".data ≠ ([] : List Char) ∧ "a\n".data.getLast? = some '\n' ∧
        ((mdCell "a\nb".data).source ≠ [] →
          (mdCell "a\nb".data).source.flatten ≠ [] ∧
            (mdCell "a\nb".data).source.flatten.getLast? = some '\n')) :=
  ⟨by decide, by decide,
    c10_source_lines "a\nb".data (mdCell "a\nb".data) "a\n".data (by decide) (by decide)⟩

/-! ### Claim C4 -/

/-- C4 counterexample: a fence whose closing marker line immediately follows
the opening marker line (`(open)\n(close)\n`, no inner lines at all) is NOT
recognized — the pattern requires a newline on each side of the body, so at
least one (possibly empty) inner line must be present.  The document stays a
single markdown cell; no code cell is produced. -/
theorem c4_empty_fence_cex :
    md_to_cells "```python\n```\n".data = [mdCell "```python\n```".data] ∧
      (md_to_cells "```python\n```\n".data).map Cell.cell_type = [CellType.markdown] := by
  constructor
  · decide
  · decide

/-- C4 (corrected): an empty-source code cell arises from a fence whose
markers are separated by exactly one empty line; a closing marker on the line
immediately after the opening marker is not matched, and such a fence is left
embedded in the markdown text. -/
theorem c4_empty_fence :
    md_to_cells "```python\n\n```".data = [codeCell []] ∧
      (codeCell []).source = [] ∧
      md_to_cells "```python\n```\n".data = [mdCell "```python\n```".data] := by
  refine ⟨by decide, by decide, by decide⟩

/-! ### Claim C5 -/

/-- C5 counterexample: two consecutive python fences with empty bodies yield
two adjacent code cells, both with empty source — adjacent same-type cells are
not merged, and empty-source cells are emitted next to cells of the same
type. -/
theorem c5_adjacent_cex :
    md_to_cells "```python\n\n```\n```python\n\n```\n".data = [codeCell [], codeCell []] ∧
      (codeCell []).cell_type = CellType.code ∧ (codeCell []).source = [] := by
  refine ⟨by decide, by decide, by decide⟩

theorem cellsLoopF_chain : ∀ (fuel : Nat) (s : List Char) (b : Bool),
    List.Chain'
      (fun a b : Cell =>
        ¬(a.cell_type = CellType.markdown ∧ b.cell_type = CellType.markdown))
      (cellsLoopF fuel s b) := by
  intro fuel
  induction fuel with
  | zero => intro s b; simp [cellsLoopF]
  | succ f ih =>
    intro s b
    cases hf : findFence s b with
    | some p =>
      obtain ⟨pre, body, rest⟩ := p
      rw [cellsLoopF_some hf]
      split
      · rw [List.nil_append, List.chain'_cons']
        refine ⟨?_, ih rest false⟩
        intro y _ hcontra
        have : CellType.code = CellType.markdown := hcontra.1
        exact absurd this (by simp)
      · rw [List.singleton_append, List.chain'_cons']
        constructor
        · intro y hy hcontra
          simp only [List.head?_cons, Option.mem_def, Option.some.injEq] at hy
          subst hy
          have : CellType.code = CellType.markdown := hcontra.2
          exact absurd this (by simp)
        · rw [List.chain'_cons']
          refine ⟨?_, ih rest false⟩
          intro y _ hcontra
          have : CellType.code = CellType.markdown := hcontra.1
          exact absurd this (by simp)
    | none =>
      rw [cellsLoopF_none hf]
      split
      · simp
      · simp

/-- C5 (corrected): the splitter never emits two adjacent markdown cells
(markdown between fences is merged into one cell), but consecutive python
fences do yield adjacent code cells, including empty-source ones; cells are
emitted in document order by a single left-to-right scan. -/
theorem c5_no_adjacent_markdown (t : List Char) :
    List.Chain'
      (fun a b : Cell =>
        ¬(a.cell_type = CellType.markdown ∧ b.cell_type = CellType.markdown))
      (md_to_cells t) :=
  cellsLoopF_chain _ _ _

/-! ### Claim C2 -/

theorem takeWhile_all_append {p : Char → Bool} :
    ∀ (xs : List Char) (y : Char) (ys : List Char),
      (∀ x ∈ xs, p x = true) → p y = false →
      ((xs ++ y :: ys).takeWhile p) = xs := by
  intro xs
  induction xs with
  | nil =>
    intro y ys _ hy
    simp [List.takeWhile_cons, hy]
  | cons a as ih =>
    intro y ys hall hy
    rw [List.cons_append, List.takeWhile_cons_of_pos (hall a (by simp))]
    rw [ih y ys (fun x hx => hall x (by simp [hx])) hy]

theorem spacePlusCap_cons_ws {c : Char} (hc : isSpaceChar c = true) (rest : List Char) :
    spacePlusCap (c :: rest) =
      match spacePlusCap rest with
      | some cap => some cap
      | none => capDotPlus rest := by
  simp [spacePlusCap, hc]

theorem spacePlusCap_cons_not {c : Char} (hc : isSpaceChar c = false) (rest : List Char) :
    spacePlusCap (c :: rest) = none := by
  simp [spacePlusCap, hc]

theorem spacePlusCap_ws :
    ∀ (W : List Char) (d : Char) (z' r : List Char),
      W ≠ [] → (∀ c ∈ W, isSpaceChar c = true) →
      isSpaceChar d = false → (∀ c ∈ d :: z', ¬(c = '\n')) →
      spacePlusCap (W ++ (d :: z') ++ '\n' :: r) = some (d :: z') := by
  intro W
  induction W with
  | nil => intro d z' r h; exact absurd rfl h
  | cons c W' ih =>
    intro d z' r _ hall hd hnl
    have hc : isSpaceChar c = true := hall c (by simp)
    have hgoal : (c :: W') ++ (d :: z') ++ '\n' :: r =
        c :: (W' ++ (d :: z') ++ '\n' :: r) := by
      simp
    rw [hgoal, spacePlusCap_cons_ws hc]
    cases W' with
    | nil =>
      have hstop : spacePlusCap ([] ++ (d :: z') ++ '\n' :: r) = none := by
        rw [List.nil_append, List.cons_append]
        exact spacePlusCap_cons_not hd _
      rw [hstop]
      show capDotPlus ([] ++ (d :: z') ++ '\n' :: r) = some (d :: z')
      rw [List.nil_append]
      have hcap : ((d :: z') ++ '\n' :: r).takeWhile (fun c => ¬(c = '\n')) = d :: z' := by
        refine takeWhile_all_append (d :: z') '\n' r ?_ (by simp)
        intro x hx
        simp [hnl x hx]
      simp only [capDotPlus]
      rw [hcap]
      simp
    | cons e W'' =>
      rw [ih d z' r (List.cons_ne_nil e W'')
        (fun x hx => hall x (by simp [hx])) hd hnl]

theorem pyStrip_dropWhile (l : List Char) :
    pyStrip (l.dropWhile isSpaceChar) = pyStrip l := by
  simp only [pyStrip, dropWhile_dropWhile]

/-- C2 counterexample: the title matcher is anchored at position 0 of the
document (Python `re.match`), so a top-level heading that is not at the very
start of the document is ignored and the stem is used — while the claim's
first-matching-line-anywhere rule would produce the heading text. -/
theorem c2_title_cex :
    get_notebook_title "intro\n# Hello\n".data "doc".data = "doc".data ∧
      specTitleAnyLine "intro\n# Hello\n".data "doc".data = "Hello".data ∧
      ¬("doc".data = "Hello".data) := by
  refine ⟨by decide, by decide, by decide⟩

/-- C2 (corrected): the match is anchored at the start of the document, not at
an arbitrary line boundary.  If the document does not begin with the heading
marker the title is the stem; if it begins with the marker followed by
whitespace and then line text containing a non-whitespace character, the title
is that text trimmed. -/
theorem c2_title_anchor (t stem w u r : List Char)
    (ht : t.head? ≠ some '#') (hw : w ≠ [])
    (hwall : ∀ c ∈ w, isSpaceChar c = true)
    (hu : ∃ c ∈ u, isSpaceChar c = false)
    (hunl : ∀ c ∈ u, ¬(c = '\n')) :
    get_notebook_title t stem = stem ∧
      get_notebook_title ('#' :: (w ++ u ++ '\n' :: r)) stem = pyStrip u := by
  constructor
  · cases t with
    | nil => rfl
    | cons c cs =>
      have hc : ¬(c = '#') := by
        intro hcontra
        subst hcontra
        exact ht rfl
      simp only [get_notebook_title]
      split
      · next heq =>
        injection heq with h1 _
        exact absurd h1 hc
      · rfl
  · have hz : u.dropWhile isSpaceChar ≠ [] := by
      intro hcontra
      rcases hu with ⟨c, hc, hcs⟩
      have := (List.dropWhile_eq_nil_iff.mp hcontra) c hc
      rw [this] at hcs
      exact absurd hcs (by simp)
    cases hzd : u.dropWhile isSpaceChar with
    | nil => exact absurd hzd hz
    | cons d z' =>
      have hd : isSpaceChar d = false :=
        head?_dropWhile_not isSpaceChar u d (by rw [hzd]; rfl)
      have hsplit : u = u.takeWhile isSpaceChar ++ (d :: z') := by
        rw [← hzd, List.takeWhile_append_dropWhile]
      have hdz : ∀ c ∈ d :: z', ¬(c = '\n') := by
        intro c hc
        refine hunl c ?_
        rw [← hzd] at hc
        exact (List.dropWhile_sublist isSpaceChar).mem hc
      have hWne : w ++ u.takeWhile isSpaceChar ≠ [] := by
        intro hcontra
        exact hw (List.append_eq_nil.mp hcontra).1
      have hWall : ∀ c ∈ w ++ u.takeWhile isSpaceChar, isSpaceChar c = true := by
        intro c hc
        rcases List.mem_append.mp hc with hc | hc
        · exact hwall c hc
        · exact List.mem_takeWhile_imp hc
      have harr : w ++ u ++ '\n' :: r =
          (w ++ u.takeWhile isSpaceChar) ++ (d :: z') ++ '\n' :: r := by
        conv_lhs => rw [hsplit]
        simp [List.append_assoc]
      simp only [get_notebook_title]
      rw [harr, spacePlusCap_ws _ d z' r hWne hWall hd hdz]
      show pyStrip (d :: z') = pyStrip u
      rw [← hzd, pyStrip_dropWhile]

theorem c2_title_anchor_wit :
    ("intro".data.head? ≠ some '#') ∧ ([' '] ≠ ([] : List Char)) ∧
      (∀ c ∈ [' '], isSpaceChar c = true) ∧
      (∃ c ∈ "Hi".data, isSpaceChar c = false) ∧
      (∀ c ∈ "Hi".data, ¬(c = '\n')) ∧
      get_notebook_title "intro".data "doc".data = "doc".data ∧
      get_notebook_title ('#' :: ([' '] ++ "Hi".data ++ '\n' :: "rest".data)) "doc".data =
        pyStrip "Hi".data :=
  ⟨by decide, by decide, by decide, by decide, by decide,
    (c2_title_anchor "intro".data "doc".data [' '] "Hi".data "rest".data
      (by decide) (by decide) (by decide) (by decide) (by decide)).1,
    (c2_title_anchor "intro".data "doc".data [' '] "Hi".data "rest".data
      (by decide) (by decide) (by decide) (by decide) (by decide)).2⟩

/-! ### Claim C6 -/

theorem hasOpen_false_findFence : ∀ (s : List Char) (b : Bool),
    hasOpen s b = false → findFence s b = none := by
  intro s
  induction s with
  | nil => intro b _; rfl
  | cons c rest ih =>
    intro b h
    simp only [hasOpen, Bool.or_eq_false_iff] at h
    obtain ⟨h1, h2⟩ := h
    have hin : (if b then (matchOpen (c :: rest)).bind findClose else none) = none := by
      cases b with
      | false => rfl
      | true =>
        simp only [Bool.true_and] at h1
        have hmo : matchOpen (c :: rest) = none := by
          cases hmo' : matchOpen (c :: rest) with
          | none => rfl
          | some v => rw [hmo'] at h1; simp at h1
        simp [hmo]
    simp only [findFence, hin, ih _ h2]
    rfl

theorem infix_dropWhile_head {u w : List Char} {a : Char}
    (hh : u.head? = some a) (ha : isSpaceChar a = false) (hinf : u <:+: w) :
    u <:+: w.dropWhile isSpaceChar := by
  rcases hinf with ⟨p, s', hps⟩
  cases u with
  | nil => simp at hh
  | cons a' u' =>
    simp only [List.head?_cons, Option.some.injEq] at hh
    subst hh
    have hw : w = p ++ ((a' :: u') ++ s') := by rw [← hps, List.append_assoc]
    rw [hw, List.dropWhile_append]
    split
    · rw [List.cons_append, List.dropWhile_cons_of_neg (by simp [ha])]
      exact ⟨[], s', by simp⟩
    · exact ⟨p.dropWhile isSpaceChar, s', by simp⟩

theorem infix_pyStrip {u t : List Char} {a b : Char}
    (hh : u.head? = some a) (ha : isSpaceChar a = false)
    (hl : u.getLast? = some b) (hb : isSpaceChar b = false)
    (hinf : u <:+: t) : u <:+: pyStrip t := by
  have step1 : u <:+: t.dropWhile isSpaceChar := infix_dropWhile_head hh ha hinf
  have hrev : u.reverse <:+: (t.dropWhile isSpaceChar).reverse :=
    List.reverse_infix.mpr step1
  have hrevh : u.reverse.head? = some b := by rw [List.head?_reverse]; exact hl
  have step2 : u.reverse <:+: (t.dropWhile isSpaceChar).reverse.dropWhile isSpaceChar :=
    infix_dropWhile_head hrevh hb hrev
  have : u.reverse.reverse <:+:
      ((t.dropWhile isSpaceChar).reverse.dropWhile isSpaceChar).reverse :=
    List.reverse_infix.mpr step2
  rwa [List.reverse_reverse] at this

/-- C6 counterexample: in a mixed document the python fence's non-greedy body
takes the following mermaid fence's closing marker as its own close, so the
entire mermaid fence text is swallowed into a CODE cell's source and no
markdown cell exists at all — a differently-tagged fence does not always stay
out of code cells, nor embedded in markdown. -/
theorem c6_foreign_fences_cex :
    md_to_cells "```python\n\n```mermaid\nA\n```\n".data =
        [codeCell "\n```mermaid\nA".data] ∧
      (codeCell "\n```mermaid\nA".data).cell_type = CellType.code ∧
      "```mermaid\nA".data <:+: (codeCell "\n```mermaid\nA".data).source.flatten ∧
      (md_to_cells "```python\n\n```mermaid\nA\n```\n".data).map Cell.cell_type =
        [CellType.code] := by
  refine ⟨by decide, by decide, by decide, by decide⟩

/-- C6 (corrected): a fenced region whose opening tag is not the exact python
tag never starts a code cell, and in any document with no line-start python
opening marker it is left embedded verbatim in markdown: the splitter emits
markdown only — one cell holding the trimmed document (or nothing when the
document is all whitespace) — and any fence text (any infix beginning and
ending with a non-whitespace character, e.g. a backtick-delimited mermaid
block) survives verbatim inside that markdown cell's text.  In a document
that also contains a python opening, a foreign fence can instead be swallowed
into a python code cell's body (see the counterexample). -/
theorem c6_foreign_fences (t : List Char) (h : hasOpen t true = false) :
    (∀ c ∈ md_to_cells t, c.cell_type = CellType.markdown) ∧
      md_to_cells t = (if pyStrip t = [] then [] else [mdCell (pyStrip t)]) ∧
      (∀ u a b, u.head? = some a → isSpaceChar a = false →
        u.getLast? = some b → isSpaceChar b = false → u <:+: t →
        u <:+: pyStrip t) := by
  have hff : findFence t true = none := hasOpen_false_findFence t true h
  have hcells : md_to_cells t = (if pyStrip t = [] then [] else [mdCell (pyStrip t)]) := by
    rw [md_to_cells, cellsLoopF_none hff]
  refine ⟨?_, hcells, ?_⟩
  · intro c hc
    rw [hcells] at hc
    split at hc
    · simp at hc
    · rw [List.mem_singleton] at hc
      subst hc
      rfl
  · intro u a b hh ha hl hb hinf
    exact infix_pyStrip hh ha hl hb hinf

theorem c6_foreign_fences_wit :
    hasOpen "pre\n```mermaid\nA\n```\npost".data true = false ∧
      md_to_cells "pre\n```mermaid\nA\n```\npost".data =
        (if pyStrip "pre\n```mermaid\nA\n```\npost".data = [] then []
         else [mdCell (pyStrip "pre\n```mermaid\nA\n```\npost".data)]) ∧
      "```mermaid\nA\n```".data <:+: pyStrip "pre\n```mermaid\nA\n```\npost".data :=
  ⟨by decide,
    (c6_foreign_fences "pre\n```mermaid\nA\n```\npost".data (by decide)).2.1,
    (c6_foreign_fences "pre\n```mermaid\nA\n```\npost".data (by decide)).2.2
      "```mermaid\nA\n```".data (Char.ofNat 96) (Char.ofNat 96)
      (by decide) (by decide) (by decide) (by decide) (by decide)⟩

/-! ### Claim C3 -/

theorem pyStrip_getLast_not_ws {t : List Char} {c : Char}
    (h : (pyStrip t).getLast? = some c) : isSpaceChar c = false := by
  have h' : ((t.dropWhile isSpaceChar).reverse.dropWhile isSpaceChar).head? = some c := by
    rw [pyStrip, List.getLast?_reverse] at h
    exact h
  exact head?_dropWhile_not isSpaceChar _ c h'

/-- C3 counterexample: for the fence-free document `" hi "` the single emitted
markdown cell reconstructs to `"hi\n"` — the document text is trimmed and a
newline appended, so the original untrimmed text is not reconstructed. -/
theorem c3_untrimmed_cex :
    labCells " hi ".data = [mdCell "hi".data] ∧
      (mdCell "hi".data).source.flatten = "hi\n".data ∧
      ¬("hi\n".data = " hi ".data) := by
  refine ⟨by decide, by decide, by decide⟩

/-- C3 (corrected): a document in which the splitter finds no fenced region
and whose trimmed text is non-empty yields exactly one markdown cell, and that
cell's joined source is the TRIMMED document text followed by one line
terminator (not the original untrimmed text). -/
theorem c3_no_fence (t : List Char) (h : findFence t true = none)
    (h2 : pyStrip t ≠ []) :
    labCells t = [mdCell (pyStrip t)] ∧
      (mdCell (pyStrip t)).source.flatten = pyStrip t ++ ['\n'] := by
  have hcells : md_to_cells t = [mdCell (pyStrip t)] := by
    rw [md_to_cells, cellsLoopF_none h, if_neg h2]
  constructor
  · simp only [labCells, hcells]
    rw [if_neg (by simp)]
  · show (to_source (pyStrip t)).flatten = pyStrip t ++ ['\n']
    rw [to_source_join _ h2]
    rw [if_neg ?_]
    intro hcontra
    have := pyStrip_getLast_not_ws hcontra
    simp [isSpaceChar] at this

theorem c3_no_fence_wit :
    findFence "  # T\nbody  ".data true = none ∧
      pyStrip "  # T\nbody  ".data ≠ [] ∧
      labCells "  # T\nbody  ".data = [mdCell (pyStrip "  # T\nbody  ".data)] ∧
      (mdCell (pyStrip "  # T\nbody  ".data)).source.flatten =
        pyStrip "  # T\nbody  ".data ++ ['\n'] :=
  ⟨by decide, by decide,
    (c3_no_fence "  # T\nbody  ".data (by decide) (by decide)).1,
    (c3_no_fence "  # T\nbody  ".data (by decide) (by decide)).2⟩

/-! ### Claims C7 and C9: the batch driver -/

theorem convert_lab_skip {fs : List Char → Option (List Char)}
    {root n st : List Char} (h : fs (pathJoin root n) = none) :
    convert_lab fs root n st = (st, [Event.msg (skipMsg (pathJoin root n))]) := by
  simp [convert_lab, h]

theorem convert_lab_events_st (fs : List Char → Option (List Char))
    (root n st st' : List Char) :
    (convert_lab fs root n st).2 = (convert_lab fs root n st').2 := by
  cases h : fs (pathJoin root n) <;> simp [convert_lab, h]

theorem runBatch_cons (fs : List Char → Option (List Char)) (root n : List Char)
    (ns : List (List Char)) (st : List Char) :
    runBatch fs root (n :: ns) st =
      ((runBatch fs root ns (convert_lab fs root n st).1).1,
       (convert_lab fs root n st).2 ++
         (runBatch fs root ns (convert_lab fs root n st).1).2) := rfl

theorem runBatch_append (fs : List Char → Option (List Char)) (root : List Char) :
    ∀ (xs ys : List (List Char)) (st : List Char),
      runBatch fs root (xs ++ ys) st =
        ((runBatch fs root ys (runBatch fs root xs st).1).1,
         (runBatch fs root xs st).2 ++ (runBatch fs root ys (runBatch fs root xs st).1).2) := by
  intro xs
  induction xs with
  | nil => intro ys st; simp [runBatch]
  | cons n ns ih =>
    intro ys st
    rw [List.cons_append, runBatch_cons, runBatch_cons, ih]
    simp [List.append_assoc]

/-- C7: a configured name whose resolved path has no file is skipped: the
conversion for it contributes exactly one skip diagnostic and no write, leaves
the shared state unchanged, and the rest of the batch — before and after —
proceeds exactly as if the name were absent; every file written by the batch
with the missing name is also written without it. -/
theorem c7_missing_skip (fs : List Char → Option (List Char)) (root n : List Char)
    (xs ys : List (List Char)) (st : List Char)
    (h : fs (pathJoin root n) = none) :
    convert_lab fs root n st = (st, [Event.msg (skipMsg (pathJoin root n))]) ∧
      (runBatch fs root (xs ++ n :: ys) st).1 = (runBatch fs root (xs ++ ys) st).1 ∧
      (runBatch fs root (xs ++ n :: ys) st).2 =
        (runBatch fs root xs st).2 ++
          Event.msg (skipMsg (pathJoin root n)) ::
            (runBatch fs root ys (runBatch fs root xs st).1).2 ∧
      (∀ p c, Event.wrote p c ∈ (runBatch fs root (xs ++ n :: ys) st).2 →
        Event.wrote p c ∈ (runBatch fs root (xs ++ ys) st).2) := by
  have hmid : ∀ st1 : List Char,
      runBatch fs root (n :: ys) st1 =
        ((runBatch fs root ys st1).1,
         Event.msg (skipMsg (pathJoin root n)) :: (runBatch fs root ys st1).2) := by
    intro st1
    rw [runBatch_cons, convert_lab_skip h]
    simp
  have he1 : runBatch fs root (xs ++ n :: ys) st =
      ((runBatch fs root ys (runBatch fs root xs st).1).1,
       (runBatch fs root xs st).2 ++
         Event.msg (skipMsg (pathJoin root n)) ::
           (runBatch fs root ys (runBatch fs root xs st).1).2) := by
    rw [runBatch_append, hmid]
  have he2 : runBatch fs root (xs ++ ys) st =
      ((runBatch fs root ys (runBatch fs root xs st).1).1,
       (runBatch fs root xs st).2 ++ (runBatch fs root ys (runBatch fs root xs st).1).2) :=
    runBatch_append fs root xs ys st
  refine ⟨convert_lab_skip h, ?_, ?_, ?_⟩
  · rw [he1, he2]
  · rw [he1]
  · intro p c hmem
    rw [he1] at hmem
    rw [he2]
    simp only [List.mem_append] at hmem ⊢
    rcases hmem with hmem | hmem
    · exact Or.inl hmem
    · rcases List.mem_cons.mp hmem with hmem | hmem
      · exact absurd hmem (by simp)
      · exact Or.inr hmem

theorem c7_missing_skip_wit :
    ((fun p => if p = pathJoin "/r".data "b.md".data then some "hi".data else none)
        (pathJoin "/r".data "a.md".data) = none) ∧
      (runBatch (fun p => if p = pathJoin "/r".data "b.md".data then some "hi".data else none)
          "/r".data ("a.md".data :: ["b.md".data]) "".data).2 =
        (runBatch (fun p => if p = pathJoin "/r".data "b.md".data then some "hi".data else none)
            "/r".data [] "".data).2 ++
          Event.msg (skipMsg (pathJoin "/r".data "a.md".data)) ::
            (runBatch (fun p => if p = pathJoin "/r".data "b.md".data then some "hi".data else none)
                "/r".data ["b.md".data]
                (runBatch (fun p => if p = pathJoin "/r".data "b.md".data then some "hi".data else none)
                  "/r".data [] "".data).1).2 :=
  ⟨by decide,
    (c7_missing_skip _ "/r".data "a.md".data [] ["b.md".data] "".data (by decide)).2.2.1⟩

/-- C9: the notebook bytes produced for a document do not depend on the
incoming value of the shared mutable metadata field (it is overwritten before
use), so converting the same document twice yields identical output events,
and a document's events are unchanged by whatever batch prefix ran before
it. -/
theorem c9_deterministic (fs : List Char → Option (List Char)) (root n : List Char)
    (xs : List (List Char)) (st st' : List Char) :
    (convert_lab fs root n st).2 = (convert_lab fs root n st').2 ∧
      (runBatch fs root (xs ++ [n]) st).2 =
        (runBatch fs root xs st).2 ++ (convert_lab fs root n st).2 ∧
      (runBatch fs root [n, n] st).2 =
        (convert_lab fs root n st).2 ++ (convert_lab fs root n st).2 := by
  refine ⟨convert_lab_events_st fs root n st st', ?_, ?_⟩
  · rw [runBatch_append]
    rw [runBatch_cons]
    simp only [runBatch, List.append_nil]
    rw [convert_lab_events_st fs root n (runBatch fs root xs st).1 st]
  · rw [runBatch_cons, runBatch_cons]
    simp only [runBatch, List.append_nil]
    rw [convert_lab_events_st fs root n (convert_lab fs root n st).1 st]

/-! ### Claim C8 -/

theorem convert_lab_found {fs : List Char → Option (List Char)}
    {root n st text : List Char} (h : fs (pathJoin root n) = some text) :
    convert_lab fs root n st =
      (pyStem n ++ ".ipynb".data,
       [Event.wrote (withSuffix (pathJoin root n) ".ipynb".data)
          (dumps (nbJson (pyStem n ++ ".ipynb".data) (labCells text))),
        Event.msg (wroteMsg (withSuffix (pathJoin root n) ".ipynb".data)
          (labCells text).length)]) := by
  simp [convert_lab, h]

set_option maxRecDepth 100000 in
/-- C8: for an existing document, exactly one file is written, at the input
path with its extension replaced by `.ipynb`; its content is the notebook
record serialized by the 2-space-indent, non-ASCII-preserving renderer; the
record carries `nbformat` 4, `nbformat_minor` 5, the metadata block with the
colab name set to the document stem plus `.ipynb`, empty provenance,
`toc_visible` true and the fixed Python-3 kernelspec/language-info
descriptors, followed by the cell sequence; and the conversion reads only the
input path, so whatever is on disk at the output path (it is overwritten
unconditionally) cannot influence the result.  The last conjunct pins the
serialized bytes — indentation, key order, literal non-ASCII — on a concrete
document. -/
theorem c8_envelope (fs fs' : List Char → Option (List Char))
    (root n st text : List Char)
    (h : fs (pathJoin root n) = some text) (h' : fs' (pathJoin root n) = some text) :
    (convert_lab fs root n st).2 =
      [Event.wrote (withSuffix (pathJoin root n) ".ipynb".data)
         (dumps (nbJson (pyStem n ++ ".ipynb".data) (labCells text))),
       Event.msg (wroteMsg (withSuffix (pathJoin root n) ".ipynb".data)
         (labCells text).length)] ∧
      convert_lab fs root n st = convert_lab fs' root n st ∧
      jLookup (nbJson (pyStem n ++ ".ipynb".data) (labCells text)) "nbformat" =
        some (Json.num 4) ∧
      jLookup (nbJson (pyStem n ++ ".ipynb".data) (labCells text)) "nbformat_minor" =
        some (Json.num 5) ∧
      jLookup (nbJson (pyStem n ++ ".ipynb".data) (labCells text)) "metadata" =
        some (colabMetadata (pyStem n ++ ".ipynb".data)) ∧
      jLookup (colabMetadata (pyStem n ++ ".ipynb".data)) "colab" =
        some (Json.obj [("name", Json.str (pyStem n ++ ".ipynb".data)),
          ("provenance", Json.arr []), ("toc_visible", Json.bool true)]) ∧
      jLookup (colabMetadata (pyStem n ++ ".ipynb".data)) "kernelspec" =
        some (Json.obj [("display_name", Json.str "Python 3".data),
          ("language", Json.str "python".data), ("name", Json.str "python3".data)]) ∧
      jLookup (colabMetadata (pyStem n ++ ".ipynb".data)) "language_info" =
        some (Json.obj [("name", Json.str "python".data),
          ("version", Json.str "3.10.0".data)]) ∧
      jLookup (nbJson (pyStem n ++ ".ipynb".data) (labCells text)) "cells" =
        some (Json.arr ((labCells text).map cellJson)) ∧
      String.mk (dumps (nbJson "a.ipynb".data (labCells "héllo".data))) =
        "\x7b\n  \"nbformat\": 4,\n  \"nbformat_minor\": 5,\n  \"metadata\": \x7b\n    \"colab\": \x7b\n      \"name\": \"a.ipynb\",\n      \"provenance\": [],\n      \"toc_visible\": true\n    \x7d,\n    \"kernelspec\": \x7b\n      \"display_name\": \"Python 3\",\n      \"language\": \"python\",\n      \"name\": \"python3\"\n    \x7d,\n    \"language_info\": \x7b\n      \"name\": \"python\",\n      \"version\": \"3.10.0\"\n    \x7d\n  \x7d,\n  \"cells\": [\n    \x7b\n      \"cell_type\": \"markdown\",\n      \"metadata\": \x7b\x7d,\n      \"source\": [\n        \"héllo\\n\"\n      ]\n    \x7d\n  ]\n\x7d" := by
  refine ⟨?_, ?_, rfl, rfl, rfl, rfl, rfl, rfl, rfl, ?_⟩
  · rw [convert_lab_found h]
  · rw [convert_lab_found h, convert_lab_found h']
  · decide

theorem c8_envelope_wit :
    (((fun p => if p = pathJoin "/r".data "a.md".data then some "héllo".data else none) :
        List Char → Option (List Char))
        (pathJoin "/r".data "a.md".data) = some "héllo".data) ∧
      (((fun p => if p = pathJoin "/r".data "a.md".data then some "héllo".data
          else some "old".data) : List Char → Option (List Char))
        (pathJoin "/r".data "a.md".data) = some "héllo".data) ∧
      (convert_lab
          (fun p => if p = pathJoin "/r".data "a.md".data then some "héllo".data else none)
          "/r".data "a.md".data "".data).2 =
        [Event.wrote (withSuffix (pathJoin "/r".data "a.md".data) ".ipynb".data)
           (dumps (nbJson (pyStem "a.md".data ++ ".ipynb".data) (labCells "héllo".data))),
         Event.msg (wroteMsg (withSuffix (pathJoin "/r".data "a.md".data) ".ipynb".data)
           (labCells "héllo".data).length)] ∧
      convert_lab
          (fun p => if p = pathJoin "/r".data "a.md".data then some "héllo".data else none)
          "/r".data "a.md".data "".data =
        convert_lab
          (fun p => if p = pathJoin "/r".data "a.md".data then some "héllo".data
            else some "old".data)
          "/r".data "a.md".data "".data :=
  ⟨by decide, by decide,
    (c8_envelope
      (fun p => if p = pathJoin "/r".data "a.md".data then some "héllo".data else none)
      (fun p => if p = pathJoin "/r".data "a.md".data then some "héllo".data
        else some "old".data)
      "/r".data "a.md".data "".data "héllo".data
      (by decide) (by decide)).1,
    (c8_envelope
      (fun p => if p = pathJoin "/r".data "a.md".data then some "héllo".data else none)
      (fun p => if p = pathJoin "/r".data "a.md".data then some "héllo".data
        else some "old".data)
      "/r".data "a.md".data "".data "héllo".data
      (by decide) (by decide)).2.1⟩

end MdToIpynb
